import Mathlib

/-!
Verification of the backtor core against its specification.

The Rust sources (src/utils.rs, src/onion_server.rs, src/onion_client.rs,
src/main.rs) are shallowly embedded below.  Bytes are modelled as `Nat`
values (with explicit bounds `< 256` where u8 overflow matters), byte
strings as `List Nat`, Rust `String` results as `List Char`, and the
stateful accept/bridge loops as pure functions over explicit event lists.
-/

namespace Backtor

/-! ### Little/big endian byte encodings -/

/-- Interprets a byte list as a little-endian natural number. -/
def leNat : List Nat → Nat
  | [] => 0
  | b :: rest => b + 256 * leNat rest

/-- Little-endian encoding of `v` into exactly `n` bytes (truncating). -/
def leBytes : Nat → Nat → List Nat
  | 0, _ => []
  | n + 1, v => v % 256 :: leBytes n (v / 256)

/-- Big-endian encoding of `v` into exactly `n` bytes (truncating). -/
def beBytes (n v : Nat) : List Nat := (leBytes n v).reverse

/-! ### Bit-level helpers for base32 -/

/-- Big-endian (most significant first) bits of a byte. -/
def byteToBits (b : Nat) : List Bool :=
  [b.testBit 7, b.testBit 6, b.testBit 5, b.testBit 4,
   b.testBit 3, b.testBit 2, b.testBit 1, b.testBit 0]

/-- Bits of a byte string, most significant bit of each byte first. -/
def bytesToBits (bs : List Nat) : List Bool := bs.flatMap byteToBits

/-- Reads a most-significant-first bit list back as a natural number. -/
def bitsToNat (bits : List Bool) : Nat :=
  bits.foldl (fun acc b => 2 * acc + (if b then 1 else 0)) 0

/-- Regroups a bit stream into bytes, dropping a trailing group of
fewer than 8 bits (as the base32 decoder does). -/
def bitsToBytes : List Bool → List Nat
  | b0 :: b1 :: b2 :: b3 :: b4 :: b5 :: b6 :: b7 :: rest =>
    bitsToNat [b0, b1, b2, b3, b4, b5, b6, b7] :: bitsToBytes rest
  | _ => []

/-- Regroups a bit stream into 5-bit values, dropping a trailing group
of fewer than 5 bits. -/
def bitsToQuintets : List Bool → List Nat
  | b0 :: b1 :: b2 :: b3 :: b4 :: rest =>
    bitsToNat [b0, b1, b2, b3, b4] :: bitsToQuintets rest
  | _ => []

/-- Most-significant-first 5 bits of a value below 32. -/
def quintetToBits (v : Nat) : List Bool :=
  [v.testBit 4, v.testBit 3, v.testBit 2, v.testBit 1, v.testBit 0]

/-! ### RFC 4648 base32 (the base32 crate, Alphabet::Rfc4648, padding: false) -/

/-- Uppercase RFC 4648 alphabet, as used by base32::encode. -/
def b32UpperAlphabet : List Char :=
  ['A', 'B', 'C', 'D', 'E', 'F', 'G', 'H', 'I', 'J', 'K', 'L', 'M',
   'N', 'O', 'P', 'Q', 'R', 'S', 'T', 'U', 'V', 'W', 'X', 'Y', 'Z',
   '2', '3', '4', '5', '6', '7']

/-- The same alphabet lowercased, i.e. the characters a lowercased
encoding consists of. -/
def b32LowerAlphabet : List Char :=
  ['a', 'b', 'c', 'd', 'e', 'f', 'g', 'h', 'i', 'j', 'k', 'l', 'm',
   'n', 'o', 'p', 'q', 'r', 's', 't', 'u', 'v', 'w', 'x', 'y', 'z',
   '2', '3', '4', '5', '6', '7']

/-- Pads a bit string with zero bits up to a multiple of five, as the
no-padding RFC 4648 encoder does for a trailing partial group. -/
def padTo5 (bits : List Bool) : List Bool :=
  bits ++ List.replicate ((5 - bits.length % 5) % 5) false

/-- RFC 4648 base32 encoding, no padding characters, uppercase alphabet:
the behaviour of base32::encode(Alphabet::Rfc4648 { padding: false }, data). -/
def base32encode (data : List Nat) : List Char :=
  (bitsToQuintets (padTo5 (bytesToBits data))).map (fun v => b32UpperAlphabet.getD v 'A')

/-- ASCII lowercasing of one character (u8::to_ascii_lowercase, lifted to char). -/
def asciiLower (c : Char) : Char :=
  if 'A' ≤ c ∧ c ≤ 'Z' then Char.ofNat (c.toNat + 32) else c

/-- Models str::to_ascii_lowercase on the list-of-characters view of a string. -/
def toAsciiLowercase (s : List Char) : List Char := s.map asciiLower

/-- Case-insensitive RFC 4648 base32 decoding (base32::decode): `none` when
some character is outside the alphabet; a trailing group of fewer than
eight bits is dropped. -/
def base32decode (s : List Char) : Option (List Nat) :=
  (s.mapM (fun c => b32LowerAlphabet.findIdx? (fun a => a = asciiLower c))).map
    (fun vals => bitsToBytes (vals.flatMap quintetToBits))

/-! ### SHA3-256 (the sha3 crate): Keccak-f[1600], rate 136, suffix 0x06 -/

/-- Splits a list into consecutive chunks of `n` elements (`n > 0`); the
final chunk may be shorter; for `n = 0` the result is empty. -/
def chunksOf (n : Nat) : List α → List (List α)
  | [] => []
  | x :: xs =>
    if _h : n = 0 then [] else (x :: xs).take n :: chunksOf n ((x :: xs).drop n)
termination_by l => l.length
decreasing_by
  simp only [List.length_drop, List.length_cons]
  omega

/-- Left rotation of a 64-bit word (represented as a Nat below 2^64). -/
def rotl64 (x n : Nat) : Nat := ((x <<< n) ||| (x >>> (64 - n))) % 2 ^ 64

/-- All-ones 64-bit mask, used for bitwise complement. -/
def mask64 : Nat := 2 ^ 64 - 1

/-- Keccak theta step on a 25-lane state (lane (x, y) at index x + 5y). -/
def keccakTheta (st : List Nat) : List Nat :=
  let c := fun x => st.getD x 0 ^^^ st.getD (x + 5) 0 ^^^ st.getD (x + 10) 0 ^^^
    st.getD (x + 15) 0 ^^^ st.getD (x + 20) 0
  let d := fun x => c ((x + 4) % 5) ^^^ rotl64 (c ((x + 1) % 5)) 1
  (List.range 25).map (fun i => st.getD i 0 ^^^ d (i % 5))

/-- Keccak rho rotation offset of the lane at index x + 5y. -/
def rhoOffsets : Nat → Nat
  | 1 => 1
  | 2 => 62
  | 3 => 28
  | 4 => 27
  | 5 => 36
  | 6 => 44
  | 7 => 6
  | 8 => 55
  | 9 => 20
  | 10 => 3
  | 11 => 10
  | 12 => 43
  | 13 => 25
  | 14 => 39
  | 15 => 41
  | 16 => 45
  | 17 => 15
  | 18 => 21
  | 19 => 8
  | 20 => 18
  | 21 => 2
  | 22 => 61
  | 23 => 56
  | 24 => 14
  | _ => 0

/-- Keccak rho and pi steps: lane (x, y) is rotated and moved to
lane (y, 2x + 3y mod 5). -/
def keccakRhoPi (st : List Nat) : List Nat :=
  (List.range 25).foldl
    (fun b i =>
      let x := i % 5
      let y := i / 5
      b.set (y + 5 * ((2 * x + 3 * y) % 5)) (rotl64 (st.getD i 0) (rhoOffsets i)))
    (List.replicate 25 0)

/-- Keccak chi step. -/
def keccakChi (b : List Nat) : List Nat :=
  (List.range 25).map (fun i =>
    let x := i % 5
    let y := i / 5
    b.getD i 0 ^^^ ((b.getD ((x + 1) % 5 + 5 * y) 0 ^^^ mask64) &&&
      b.getD ((x + 2) % 5 + 5 * y) 0))

/-- The 24 Keccak-f[1600] round constants (decimal). -/
def keccakRoundConstants : List Nat :=
  [1, 32898, 9223372036854808714,
   9223372039002292224, 32907, 2147483649,
   9223372039002292353, 9223372036854808585, 138,
   136, 2147516425, 2147483658,
   2147516555, 9223372036854775947, 9223372036854808713,
   9223372036854808579, 9223372036854808578, 9223372036854775936,
   32778, 9223372039002259466, 9223372039002292353,
   9223372036854808704, 2147483649, 9223372039002292232]

/-- One Keccak round: theta, rho-pi, chi, iota. -/
def keccakRound (st : List Nat) (rc : Nat) : List Nat :=
  let ch := keccakChi (keccakRhoPi (keccakTheta st))
  ch.set 0 (ch.getD 0 0 ^^^ rc)

/-- The full Keccak-f[1600] permutation (24 rounds). -/
def keccakF (st : List Nat) : List Nat := keccakRoundConstants.foldl keccakRound st

/-- SHA-3 multi-rate padding for a message of `len` bytes at rate 136:
domain suffix 0x06, zero fill, final bit 0x80 (merged into 0x86 when a
single padding byte remains). -/
def sha3Pad (len : Nat) : List Nat :=
  let q := 136 - len % 136
  if q = 1 then [0x86] else 0x06 :: (List.replicate (q - 2) 0 ++ [0x80])

/-- Absorbs one 136-byte block: XOR into the first 17 little-endian
lanes, then permute. -/
def absorbBlock (st block : List Nat) : List Nat :=
  keccakF ((List.range 25).map (fun i =>
    if i < 17 then st.getD i 0 ^^^ leNat ((block.drop (8 * i)).take 8) else st.getD i 0))

/-- SHA3-256 digest (32 bytes) of a byte string, as sha3::Sha3_256
computes it; the streaming update calls of the source concatenate. -/
def sha3_256 (msg : List Nat) : List Nat :=
  let padded := msg ++ sha3Pad msg.length
  let st := (chunksOf 136 padded).foldl absorbBlock (List.replicate 25 0)
  (List.range 4).flatMap (fun i => leBytes 8 (st.getD i 0))

/-- The ASCII bytes of the checksum domain string ".onion checksum". -/
def dotOnionChecksum : List Nat := ".onion checksum".data.map Char.toNat

/-- Shallow embedding of utils::get_onion_address: builds the 35-byte
buffer (public key copied by the enumerate/set loop, two checksum bytes
from SHA3-256 over ".onion checksum" ++ key ++ 0x03, version byte 3),
base32-encodes it and lowercases the result.  The source panics when the
slice is not exactly 32 bytes; that fail-fast branch is modelled as
`none`.  Rust strings are modelled as lists of characters. -/
def get_onion_address (public_key : List Nat) : Option (List Char) :=
  if public_key.length = 32 then
    let pub_key := public_key
    let buf0 := pub_key.enum.foldl (fun b iv => b.set iv.1 iv.2) (List.replicate 35 0)
    let res_vec := sha3_256 (dotOnionChecksum ++ pub_key ++ [0x03])
    let buf := ((buf0.set 32 (res_vec.getD 0 0)).set 33 (res_vec.getD 1 0)).set 34 3
    some (toAsciiLowercase (base32encode buf))
  else none

/-- The address derivation as the specification words it (claim C2): the
base32 encoding (RFC 4648 alphabet, no padding, lower-cased) of the
35-byte buffer whose bytes 0-31 are the public key, whose bytes 32-33
are the first two bytes of SHA3-256 over ".onion checksum", then the
key, then 0x03, and whose byte 34 is the version constant 3. -/
def spec_onion_address (pk : List Nat) : List Char :=
  let h := sha3_256 (dotOnionChecksum ++ pk ++ [0x03])
  toAsciiLowercase (base32encode (pk ++ [h.getD 0 0, h.getD 1 0] ++ [3]))

/-! ### onion_client.rs: OnionShellClient -/

namespace OnionClient

/-- The fixed port the client dials (onion_client.rs, SHELL_PORT). -/
def SHELL_PORT : Nat := 22

/-- Shallow embedding of the stdin-to-network loop in
OnionShellClient::run_session.  One element of the input list models one
`stdin.read` result: `none` is `Err(_)`, `some []` is `Ok(0)` (EOF),
`some chunk` a successfully read chunk.  The result is the byte sequence
written to the network stream.  A read error or EOF breaks the loop; a
chunk containing the escape byte 0x04 breaks the loop without writing
any of the chunk; network writes are modelled as succeeding (in the
source a failed write also breaks the loop without any further output). -/
def stdinToNet : List (Option (List Nat)) → List Nat
  | [] => []
  | none :: _ => []
  | some [] :: _ => []
  | some (b :: bs) :: rest =>
    if 0x04 ∈ b :: bs then [] else (b :: bs) ++ stdinToNet rest

/-- Outcome of each bridged session half used by run_session: the
select either sees a normal task end or a JoinError from a panicked
task; in both cases run_session logs and returns Ok. -/
inductive SessionEnd where
  | normal
  | taskPanicked
deriving DecidableEq

/-- Observable steps of OnionShellClient::connect, in program order. -/
inductive ClientEvent where
  | torConnectFailed
  | torConnected
  | bannerPrinted
  | rawModeEnabled
  | rawEnableFailed
  | sessionRun (se : SessionEnd)
  | rawModeDisabled
  | sessionClosedPrinted
deriving DecidableEq

/-- Shallow embedding of OnionShellClient::connect: connect through Tor
(early return on failure, before raw mode is touched), print the banner,
enable raw mode (early return on failure), run the session (which
returns Ok for both a normal end and a panicked bridge task), always
disable raw mode, print the closing notice. -/
def connectTrace (connectOk enableRawOk : Bool) (se : SessionEnd) : List ClientEvent :=
  if connectOk = false then [.torConnectFailed]
  else if enableRawOk = false then [.torConnected, .bannerPrinted, .rawEnableFailed]
  else [.torConnected, .bannerPrinted, .rawModeEnabled, .sessionRun se,
    .rawModeDisabled, .sessionClosedPrinted]

/-- Whether connect returns an error to its caller. -/
def connectErr (connectOk enableRawOk : Bool) : Bool :=
  !connectOk || !enableRawOk

/-- Terminal raw-mode state after a trace of client events (raw mode is
off initially, enabled and disabled by the corresponding events). -/
def rawAfter (trace : List ClientEvent) : Bool :=
  trace.foldl
    (fun raw e =>
      match e with
      | .rawModeEnabled => true
      | .rawModeDisabled => false
      | _ => raw)
    false

end OnionClient

/-! ### onion_server.rs: onion_service_from_sk (direct-shell accept loop,
announcement task) -/

namespace OnionServer

/-- The fixed port the shell service accepts (onion_server.rs, SHELL_PORT). -/
def SHELL_PORT : Nat := 23

/-- The shape of an incoming stream request as far as the accept loop
inspects it: a Begin relay request carrying a target port, or anything
else (the `_` arm of the match). -/
inductive IncomingStreamRequest where
  | begin (port : Nat)
  | other

/-- One request arriving on the accepted-streams stream, together with
whether the transport-level `accept` call would succeed for it. -/
structure StreamRequestEvent where
  request : IncomingStreamRequest
  acceptOk : Bool

/-- Externally visible actions of the direct-shell accept loop.
`handlerAborted` is never emitted by the loop; it is in the vocabulary
so that "in-flight handlers are not aborted" is expressible. -/
inductive ServerAction where
  | handlerSpawned
  | acceptFailed
  | circuitShutdown
  | handlerAborted
  | loopExited
deriving DecidableEq

/-- Processing of one stream request by the direct-shell accept loop:
a Begin request for SHELL_PORT is accepted — spawning exactly one
shell-connection handler task on success, only logging on accept
failure — and any other request has its circuit explicitly shut down. -/
def stepRequest (e : StreamRequestEvent) : List ServerAction :=
  match e.request with
  | .begin port =>
    if port = SHELL_PORT then
      if e.acceptOk then [.handlerSpawned] else [.acceptFailed]
    else [.circuitShutdown]
  | .other => [.circuitShutdown]

/-- One iteration input of the select loop: either the stream yields a
request or the cancellation token fires. -/
inductive LoopEvent where
  | req (e : StreamRequestEvent)
  | cancelled

/-- Shallow embedding of the direct-shell accept loop: processes stream
requests in order and returns at the first cancellation event; an ended
input list means the loop is still parked waiting. -/
def acceptLoop : List LoopEvent → List ServerAction
  | [] => []
  | .cancelled :: _ => [.loopExited]
  | .req e :: rest => stepRequest e ++ acceptLoop rest

/-- Number of shell-connection handler tasks spawned in a trace. -/
def countSpawned (as : List ServerAction) : Nat :=
  as.countP (fun a => a = .handlerSpawned)

/-- A status event of the onion service, reduced to the only field the
announcement task inspects (event.state().is_fully_reachable()). -/
structure OnionStatusEvent where
  fullyReachable : Bool

/-- Steps of the announcement task. -/
inductive AnnounceStep where
  | observed (fullyReachable : Bool)
  | announced
deriving DecidableEq

/-- Shallow embedding of the announcement task spawned by
onion_service_from_sk: it consumes status events until one is fully
reachable (the while-let loop), then prints the address line once.
When the status stream ends (None) before any fully reachable event,
the while-let exits and the line is printed anyway. -/
def announceTrace : List OnionStatusEvent → List AnnounceStep
  | [] => [.announced]
  | e :: rest =>
    .observed e.fullyReachable ::
      (if e.fullyReachable then [.announced] else announceTrace rest)

/-- Number of times the announcement line is printed. -/
def announceCount (evts : List OnionStatusEvent) : Nat :=
  (announceTrace evts).countP (fun s => s = .announced)

end OnionServer

/-! ### SHA-512, as used by the external ed25519 key expansion -/

/-- SHA-512 initial hash values H0..H7 (decimal). -/
def sha512IV : List Nat :=
  [7640891576956012808, 13503953896175478587,
   4354685564936845355, 11912009170470909681,
   5840696475078001361, 11170449401992604703,
   2270897969802886507, 6620516959819538809]

/-- SHA-512 round constants K0..K79 (decimal). -/
def sha512K : List Nat :=
  [4794697086780616226, 8158064640168781261, 13096744586834688815,
   16840607885511220156, 4131703408338449720, 6480981068601479193,
   10538285296894168987, 12329834152419229976, 15566598209576043074,
   1334009975649890238, 2608012711638119052, 6128411473006802146,
   8268148722764581231, 9286055187155687089, 11230858885718282805,
   13951009754708518548, 16472876342353939154, 17275323862435702243,
   1135362057144423861, 2597628984639134821, 3308224258029322869,
   5365058923640841347, 6679025012923562964, 8573033837759648693,
   10970295158949994411, 12119686244451234320, 12683024718118986047,
   13788192230050041572, 14330467153632333762, 15395433587784984357,
   489312712824947311, 1452737877330783856, 2861767655752347644,
   3322285676063803686, 5560940570517711597, 5996557281743188959,
   7280758554555802590, 8532644243296465576, 9350256976987008742,
   10552545826968843579, 11727347734174303076, 12113106623233404929,
   14000437183269869457, 14369950271660146224, 15101387698204529176,
   15463397548674623760, 17586052441742319658, 1182934255886127544,
   1847814050463011016, 2177327727835720531, 2830643537854262169,
   3796741975233480872, 4115178125766777443, 5681478168544905931,
   6601373596472566643, 7507060721942968483, 8399075790359081724,
   8693463985226723168, 9568029438360202098, 10144078919501101548,
   10430055236837252648, 11840083180663258601, 13761210420658862357,
   14299343276471374635, 14566680578165727644, 15097957966210449927,
   16922976911328602910, 17689382322260857208, 500013540394364858,
   748580250866718886, 1242879168328830382, 1977374033974150939,
   2944078676154940804, 3659926193048069267, 4368137639120453308,
   4836135668995329356, 5532061633213252278, 6448918945643986474,
   6902733635092675308, 7801388544844847127]

/-- Right rotation of a 64-bit word. -/
def rotr64 (x n : Nat) : Nat := ((x >>> n) ||| (x <<< (64 - n))) % 2 ^ 64

/-- Interprets a byte list as a big-endian natural number. -/
def beNat (bs : List Nat) : Nat := bs.foldl (fun a b => 256 * a + b) 0

/-- SHA-512 big sigma and small sigma functions. -/
def bSig0 (x : Nat) : Nat := rotr64 x 28 ^^^ rotr64 x 34 ^^^ rotr64 x 39

def bSig1 (x : Nat) : Nat := rotr64 x 14 ^^^ rotr64 x 18 ^^^ rotr64 x 41

def sSig0 (x : Nat) : Nat := rotr64 x 1 ^^^ rotr64 x 8 ^^^ (x >>> 7)

def sSig1 (x : Nat) : Nat := rotr64 x 19 ^^^ rotr64 x 61 ^^^ (x >>> 6)

/-- SHA-512 padding: 0x80, zero fill, 16-byte big-endian bit length. -/
def sha512Pad (len : Nat) : List Nat :=
  0x80 :: (List.replicate ((128 - (len + 17) % 128) % 128) 0 ++ beBytes 16 (8 * len))

/-- Extends the 16 message words to the 80-entry schedule. -/
def sha512Schedule (w16 : List Nat) : List Nat :=
  (List.range 64).foldl
    (fun w _ =>
      let t := w.length
      w ++ [(sSig1 (w.getD (t - 2) 0) + w.getD (t - 7) 0 + sSig0 (w.getD (t - 15) 0)
        + w.getD (t - 16) 0) % 2 ^ 64])
    w16

/-- The 80-round SHA-512 compression on state [a, b, c, d, e, f, g, h]. -/
def sha512Compress (w hs : List Nat) : List Nat :=
  (List.range 80).foldl
    (fun st t =>
      let a := st.getD 0 0
      let b := st.getD 1 0
      let c := st.getD 2 0
      let d := st.getD 3 0
      let e := st.getD 4 0
      let f := st.getD 5 0
      let g := st.getD 6 0
      let h := st.getD 7 0
      let t1 := (h + bSig1 e + ((e &&& f) ^^^ ((e ^^^ mask64) &&& g))
        + sha512K.getD t 0 + w.getD t 0) % 2 ^ 64
      let t2 := (bSig0 a + ((a &&& b) ^^^ (a &&& c) ^^^ (b &&& c))) % 2 ^ 64
      [(t1 + t2) % 2 ^ 64, a, b, c, (d + t1) % 2 ^ 64, e, f, g])
    hs

/-- Processes one 128-byte block. -/
def sha512Block (hs block : List Nat) : List Nat :=
  let w16 := (List.range 16).map (fun i => beNat ((block.drop (8 * i)).take 8))
  let out := sha512Compress (sha512Schedule w16) hs
  List.zipWith (fun x y => (x + y) % 2 ^ 64) hs out

/-- SHA-512 digest (64 bytes) of a byte string. -/
def sha512 (msg : List Nat) : List Nat :=
  let padded := msg ++ sha512Pad msg.length
  let hs := (chunksOf 128 padded).foldl sha512Block sha512IV
  (List.range 8).flatMap (fun i => beBytes 8 (hs.getD i 0))

/-! ### Ed25519 key expansion (ed25519-dalek and tor-llcrypto, external
crates called by utils.rs), modelled from the crates' documented
algorithms and the specification -/

/-- The ed25519 base field prime 2^255 - 19. -/
def edP : Nat := 2 ^ 255 - 19

/-- The ed25519 group order l = 2^252 + 27742317777372353535851937790883648493. -/
def edL : Nat := 2 ^ 252 + 27742317777372353535851937790883648493

/-- The twisted Edwards curve constant d. -/
def edD : Nat := 37095705934669439343138083508754565189542113879843219016388785533085940283555

/-- A curve point in extended homogeneous coordinates, all below edP. -/
structure EdPoint where
  x : Nat
  y : Nat
  z : Nat
  t : Nat

/-- Complete twisted Edwards point addition (add-2008-hwcd-3). -/
def edAdd (p q : EdPoint) : EdPoint :=
  let a := ((p.y + edP - p.x) * (q.y + edP - q.x)) % edP
  let b := ((p.y + p.x) * (q.y + q.x)) % edP
  let c := (2 * edD % edP) * p.t % edP * q.t % edP
  let d := 2 * p.z % edP * q.z % edP
  let e := (b + edP - a) % edP
  let f := (d + edP - c) % edP
  let g := (d + c) % edP
  let h := (b + a) % edP
  ⟨e * f % edP, g * h % edP, f * g % edP, e * h % edP⟩

/-- The neutral element. -/
def edIdentity : EdPoint := ⟨0, 1, 1, 0⟩

/-- The ed25519 base point. -/
def edBase : EdPoint :=
  let bx := 15112221349535400772501151409588531511454012693041857206046113283949847762202
  let gy := 46316835694926478169428394003475163141307993866256225615783033603165251855960
  ⟨bx, gy, 1, bx * gy % edP⟩

/-- Binary double-and-add scalar multiplication (256 bits of fuel). -/
def edScalarMulGo : Nat → Nat → EdPoint → EdPoint → EdPoint
  | 0, _, acc, _ => acc
  | fuel + 1, k, acc, base =>
    edScalarMulGo fuel (k / 2) (if k % 2 = 1 then edAdd acc base else acc) (edAdd base base)

def edScalarMul (k : Nat) (p : EdPoint) : EdPoint := edScalarMulGo 256 k edIdentity p

/-- Binary modular exponentiation modulo edP (300 bits of fuel). -/
def powModGo : Nat → Nat → Nat → Nat → Nat
  | 0, _, _, acc => acc
  | fuel + 1, b, e, acc =>
    powModGo fuel (b * b % edP) (e / 2) (if e % 2 = 1 then acc * b % edP else acc)

def powModP (b e : Nat) : Nat := powModGo 300 (b % edP) e 1

/-- Field inverse via Fermat exponentiation. -/
def invModP (a : Nat) : Nat := powModP a (edP - 2)

/-- Point compression: 32 little-endian bytes of y with the parity of x
in the top bit. -/
def edCompress (p : EdPoint) : List Nat :=
  let zi := invModP p.z
  let xa := p.x * zi % edP
  let ya := p.y * zi % edP
  let bytes := leBytes 32 ya
  bytes.set 31 (bytes.getD 31 0 ||| 128 * (xa % 2))

/-- The ed25519 public key bytes of a secret scalar. -/
def ed25519PublicKey (scalar : Nat) : List Nat := edCompress (edScalarMul scalar edBase)

/-- clamp_integer of ed25519-dalek: clear the low three bits of byte 0,
clear the top bit and set bit 6 of byte 31. -/
def clampInteger (bytes : List Nat) : List Nat :=
  let b0 := bytes.set 0 ((bytes.getD 0 0) &&& 248)
  b0.set 31 (((b0.getD 31 0) &&& 127) ||| 64)

/-- Modelled from the spec: tor-llcrypto's ExpandedKeypair (the external
type utils.rs converts into; only its use sites are in this repository).
Per the specification it is "a 64-byte derived representation (32-byte
scalar + 32-byte hash prefix) sufficient to construct a deterministic
signing identity". -/
structure ExpandedKeypair where
  secret : List Nat
  public : List Nat

/-- Modelled from the spec: tor-llcrypto's
ExpandedKeypair::from_secret_key_bytes, the external conversion whose
failure utils.rs turns into a panic.  The specification states that the
expansion is a total, deterministic function of the seed; the conversion
is modelled as accepting exactly those 64-byte strings whose scalar half
is canonical (already reduced modulo the group order) — the strictest
failure condition consistent with that totality — and as deriving the
public key from the scalar. -/
def from_secret_key_bytes (bytes : List Nat) : Option ExpandedKeypair :=
  let s := leNat (bytes.take 32)
  if s < edL then some ⟨bytes, ed25519PublicKey s⟩ else none

/-- Shallow embedding of utils::keypair_from_sk: ed25519-dalek's
ExpandedSecretKey::from hashes the seed with SHA-512, clamps the lower
32 bytes and reduces them modulo the group order; the source then
copies scalar.to_bytes() (the canonical little-endian scalar) and the
hash prefix into a 64-byte buffer and converts it, panicking if the
conversion fails (modelled as `none`). -/
def keypair_from_sk (secret_key : List Nat) : Option ExpandedKeypair :=
  let h := sha512 secret_key
  let scalar := leNat (clampInteger (h.take 32)) % edL
  let bytes := leBytes 32 scalar ++ h.drop 32
  from_secret_key_bytes bytes

/-- The address a seed deterministically induces (the composition used
for the service nickname in onion_server.rs:251-258). -/
def onion_address_of_sk (sk : List Nat) : Option (List Char) :=
  (keypair_from_sk sk).bind (fun kp => get_onion_address kp.public)

theorem leBytes_length (n v : Nat) : (leBytes n v).length = n := by
  induction n generalizing v with
  | zero => rfl
  | succ n ih => simp [leBytes, ih]

theorem leBytes_lt (n v : Nat) : ∀ b ∈ leBytes n v, b < 256 := by
  induction n generalizing v with
  | zero => simp [leBytes]
  | succ n ih =>
    intro b hb
    simp only [leBytes, List.mem_cons] at hb
    rcases hb with h | h
    · exact h ▸ Nat.mod_lt _ (by norm_num)
    · exact ih _ b h

theorem leNat_leBytes (n v : Nat) : leNat (leBytes n v) = v % 256 ^ n := by
  induction n generalizing v with
  | zero => simp [leBytes, leNat, Nat.mod_one]
  | succ n ih =>
    simp only [leBytes, leNat, ih]
    rw [Nat.pow_succ, Nat.mul_comm (256 ^ n) 256, Nat.mod_mul]

set_option maxRecDepth 4096 in
theorem bitsToNat_byteToBits : ∀ b < 256, bitsToNat (byteToBits b) = b := by decide

theorem quintetToBits_bitsToNat (b0 b1 b2 b3 b4 : Bool) :
    quintetToBits (bitsToNat [b0, b1, b2, b3, b4]) = [b0, b1, b2, b3, b4] := by
  revert b0 b1 b2 b3 b4; decide

theorem bitsToNat_lt_32 (b0 b1 b2 b3 b4 : Bool) :
    bitsToNat [b0, b1, b2, b3, b4] < 32 := by
  revert b0 b1 b2 b3 b4; decide

theorem bitsToBytes_byteToBits_append (b : Nat) (hb : b < 256) (rest : List Bool) :
    bitsToBytes (byteToBits b ++ rest) = b :: bitsToBytes rest := by
  have h := bitsToNat_byteToBits b hb
  simp only [byteToBits] at h
  simp only [byteToBits, List.cons_append, List.nil_append, bitsToBytes, h]
  rfl

theorem bitsToBytes_bytesToBits (data : List Nat) (hb : ∀ b ∈ data, b < 256)
    (extra : List Bool) :
    bitsToBytes (bytesToBits data ++ extra) = data ++ bitsToBytes extra := by
  induction data with
  | nil => simp [bytesToBits]
  | cons b rest ih =>
    have hb0 : b < 256 := hb b (by simp)
    have hrest := ih (fun x hx => hb x (by simp [hx]))
    simp only [bytesToBits, List.flatMap_cons, List.append_assoc] at hrest ⊢
    rw [bitsToBytes_byteToBits_append b hb0, hrest, List.cons_append]

theorem exists_five_cons_of_length_ge (bits : List Bool) (h : 5 ≤ bits.length) :
    ∃ b0 b1 b2 b3 b4 rest, bits = b0 :: b1 :: b2 :: b3 :: b4 :: rest := by
  match bits with
  | b0 :: b1 :: b2 :: b3 :: b4 :: rest => exact ⟨b0, b1, b2, b3, b4, rest, rfl⟩
  | [] => simp at h
  | [_] => simp at h
  | [_, _] => simp at h
  | [_, _, _] => simp at h
  | [_, _, _, _] => simp at h

theorem bitsToQuintets_short (bits : List Bool) (h : bits.length < 5) :
    bitsToQuintets bits = [] := by
  match bits with
  | [] => rfl
  | [b0] => simp [bitsToQuintets]
  | [b0, b1] => simp [bitsToQuintets]
  | [b0, b1, b2] => simp [bitsToQuintets]
  | [b0, b1, b2, b3] => simp [bitsToQuintets]
  | b0 :: b1 :: b2 :: b3 :: b4 :: rest => simp only [List.length_cons] at h; omega

theorem bitsToQuintets_flatMap (bits : List Bool) (h : bits.length % 5 = 0) :
    (bitsToQuintets bits).flatMap quintetToBits = bits := by
  induction bits using bitsToQuintets.induct with
  | case1 b0 b1 b2 b3 b4 rest ih =>
    have hr : rest.length % 5 = 0 := by
      simp only [List.length_cons] at h; omega
    simp [bitsToQuintets, List.flatMap_cons, quintetToBits_bitsToNat, ih hr]
  | case2 bits hne =>
    have hlt : bits.length < 5 := by
      by_contra hge
      push_neg at hge
      obtain ⟨b0, b1, b2, b3, b4, rest, rfl⟩ := exists_five_cons_of_length_ge bits hge
      exact hne b0 b1 b2 b3 b4 rest rfl
    have hz : bits.length = 0 := by omega
    rw [bitsToQuintets_short bits hlt, List.eq_nil_of_length_eq_zero hz]
    rfl

theorem bitsToQuintets_mem_lt (bits : List Bool) :
    ∀ q ∈ bitsToQuintets bits, q < 32 := by
  induction bits using bitsToQuintets.induct with
  | case1 b0 b1 b2 b3 b4 rest ih =>
    intro q hq
    simp only [bitsToQuintets, List.mem_cons] at hq
    rcases hq with h | h
    · exact h ▸ bitsToNat_lt_32 b0 b1 b2 b3 b4
    · exact ih q h
  | case2 bits hne =>
    intro q hq
    have hlt : bits.length < 5 := by
      by_contra hge
      push_neg at hge
      obtain ⟨b0, b1, b2, b3, b4, rest, rfl⟩ := exists_five_cons_of_length_ge bits hge
      exact hne b0 b1 b2 b3 b4 rest rfl
    rw [bitsToQuintets_short bits hlt] at hq
    simp at hq

theorem bitsToQuintets_length (bits : List Bool) :
    (bitsToQuintets bits).length = bits.length / 5 := by
  induction bits using bitsToQuintets.induct with
  | case1 b0 b1 b2 b3 b4 rest ih =>
    simp only [bitsToQuintets, List.length_cons, ih]
    omega
  | case2 bits hne =>
    have hlt : bits.length < 5 := by
      by_contra hge
      push_neg at hge
      obtain ⟨b0, b1, b2, b3, b4, rest, rfl⟩ := exists_five_cons_of_length_ge bits hge
      exact hne b0 b1 b2 b3 b4 rest rfl
    rw [bitsToQuintets_short bits hlt]
    simp [Nat.div_eq_of_lt hlt]

theorem bytesToBits_length (bs : List Nat) :
    (bytesToBits bs).length = 8 * bs.length := by
  induction bs with
  | nil => rfl
  | cons b rest ih =>
    simp only [bytesToBits, List.flatMap_cons, List.length_append] at ih ⊢
    simp [byteToBits, ih, List.length_cons]
    ring

/-- Helper: mapM over Option succeeds pointwise. -/
theorem mapM_eq_some_map {α β : Type} (f : α → Option β) (g : α → β) (s : List α)
    (h : ∀ a ∈ s, f a = some (g a)) : s.mapM f = some (s.map g) := by
  induction s with
  | nil => rfl
  | cons a s ih =>
    simp only [List.mapM_cons, h a (by simp), Option.bind_eq_bind, Option.some_bind,
      ih (fun x hx => h x (by simp [hx])), List.map_cons]
    rfl

theorem sha3_256_length (msg : List Nat) : (sha3_256 msg).length = 32 := by
  have h4 : List.range 4 = [0, 1, 2, 3] := rfl
  simp only [sha3_256, h4, List.flatMap_cons, List.flatMap_nil, List.length_append,
    leBytes_length, List.length_nil]

theorem sha3_256_lt (msg : List Nat) : ∀ b ∈ sha3_256 msg, b < 256 := by
  intro b hb
  simp only [sha3_256, List.mem_flatMap] at hb
  obtain ⟨i, _, hmem⟩ := hb
  exact leBytes_lt 8 _ b hmem

/-! ### utils.rs: keypair_from_sk and get_onion_address -/

/-- Writing an enumerated list into a buffer by successive `set` calls
(the copy loop of get_onion_address) overwrites exactly the addressed
positions. -/
theorem foldl_set_enumFrom {α : Type} (pk : List α) (pre mid : List α)
    (h : pk.length ≤ mid.length) :
    (List.enumFrom pre.length pk).foldl (fun b iv => b.set iv.1 iv.2) (pre ++ mid)
      = pre ++ pk ++ mid.drop pk.length := by
  induction pk generalizing pre mid with
  | nil => simp [List.enumFrom]
  | cons v rest ih =>
    match mid with
    | [] => simp at h
    | m0 :: mrest =>
      simp only [List.enumFrom, List.foldl_cons, List.length_cons] at h ⊢
      have hset : (pre ++ m0 :: mrest).set pre.length v = (pre ++ [v]) ++ mrest := by
        rw [List.set_append_right _ _ (le_refl pre.length), Nat.sub_self]
        simp
      rw [hset]
      have hpre : pre.length + 1 = (pre ++ [v]).length := by simp
      have hrest : rest.length ≤ mrest.length := by omega
      rw [hpre, ih (pre ++ [v]) mrest hrest]
      simp [List.append_assoc]

/-- The 35-byte buffer built by the copy loop and the three set calls is
the concatenation the specification describes. -/
theorem onion_buf_eq (pk : List Nat) (h0 h1 : Nat) (hlen : pk.length = 32) :
    (((pk.enum.foldl (fun b iv => b.set iv.1 iv.2) (List.replicate 35 0)).set 32 h0).set
        33 h1).set 34 3
      = pk ++ [h0, h1, 3] := by
  have hfill := foldl_set_enumFrom pk [] (List.replicate 35 0) (by simp [hlen])
  simp only [List.length_nil, List.nil_append] at hfill
  have henum : pk.enum = List.enumFrom 0 pk := rfl
  rw [henum, hfill, hlen]
  have hdrop : (List.replicate 35 (0 : Nat)).drop 32 = [0, 0, 0] := by decide
  rw [hdrop]
  have h32 : (32 : Nat) = pk.length + 0 := by omega
  have h33 : (33 : Nat) = pk.length + 1 := by omega
  have h34 : (34 : Nat) = pk.length + 2 := by omega
  rw [h32, List.set_append_right _ _ (by omega), h33,
    List.set_append_right _ _ (by omega), h34,
    List.set_append_right _ _ (by omega)]
  simp [hlen]

/-! ### Alphabet facts and the base32 round trip -/

set_option maxRecDepth 8192 in
theorem asciiLower_upperAlphabet :
    ∀ v < 32, asciiLower (b32UpperAlphabet.getD v 'A') = b32LowerAlphabet.getD v 'a' := by
  decide

set_option maxRecDepth 8192 in
theorem lowerAlphabet_mem : ∀ v < 32, b32LowerAlphabet.getD v 'a' ∈ b32LowerAlphabet := by
  decide

set_option maxRecDepth 8192 in
theorem findIdx_lowerAlphabet :
    ∀ v < 32, b32LowerAlphabet.findIdx?
      (fun a => a = asciiLower (b32LowerAlphabet.getD v 'a')) = some v := by
  decide

theorem mapM_findIdx_quintets (qs : List Nat) (hq : ∀ q ∈ qs, q < 32) :
    (qs.map (fun q => b32LowerAlphabet.getD q 'a')).mapM
      (fun c => b32LowerAlphabet.findIdx? (fun a => a = asciiLower c)) = some qs := by
  induction qs with
  | nil => rfl
  | cons q rest ih =>
    simp only [List.map_cons, List.mapM_cons, findIdx_lowerAlphabet q (hq q (by simp)),
      Option.bind_eq_bind, Option.some_bind, ih (fun x hx => hq x (by simp [hx]))]
    rfl

theorem padTo5_bytesToBits (data : List Nat) (h5 : (8 * data.length) % 5 = 0) :
    padTo5 (bytesToBits data) = bytesToBits data := by
  have hlen := bytesToBits_length data
  simp [padTo5, hlen, h5]

theorem base32encode_length (data : List Nat) :
    (base32encode data).length = (padTo5 (bytesToBits data)).length / 5 := by
  simp [base32encode, List.length_map, bitsToQuintets_length]

theorem toAsciiLowercase_base32encode_mem (data : List Nat) :
    ∀ c ∈ toAsciiLowercase (base32encode data), c ∈ b32LowerAlphabet := by
  intro c hc
  simp only [toAsciiLowercase, base32encode, List.map_map, List.mem_map,
    Function.comp] at hc
  obtain ⟨q, hq, rfl⟩ := hc
  have hqlt : q < 32 := bitsToQuintets_mem_lt _ q hq
  rw [asciiLower_upperAlphabet q hqlt]
  exact lowerAlphabet_mem q hqlt

theorem base32decode_toLower_encode (data : List Nat) (hb : ∀ b ∈ data, b < 256)
    (h5 : (8 * data.length) % 5 = 0) :
    base32decode (toAsciiLowercase (base32encode data)) = some data := by
  have hpad := padTo5_bytesToBits data h5
  have hqlt := bitsToQuintets_mem_lt (bytesToBits data)
  have hmap : toAsciiLowercase (base32encode data)
      = (bitsToQuintets (bytesToBits data)).map (fun q => b32LowerAlphabet.getD q 'a') := by
    simp only [toAsciiLowercase, base32encode, hpad, List.map_map]
    exact List.map_congr_left (fun q hq => asciiLower_upperAlphabet q (hqlt q hq))
  have hbits : (bitsToQuintets (bytesToBits data)).flatMap quintetToBits
      = bytesToBits data := by
    apply bitsToQuintets_flatMap
    rw [bytesToBits_length]; exact h5
  have hbytes : bitsToBytes (bytesToBits data) = data := by
    have hs := bitsToBytes_bytesToBits data hb []
    have hnil : bitsToBytes [] = [] := rfl
    rw [List.append_nil, hnil, List.append_nil] at hs
    exact hs
  rw [hmap]
  simp only [base32decode, mapM_findIdx_quintets _ hqlt]
  show some (bitsToBytes ((bitsToQuintets (bytesToBits data)).flatMap quintetToBits))
    = some data
  rw [hbits, hbytes]

/-! ### Theorems for claims C2 and C3 -/

theorem onion_address_eq_spec (pk : List Nat) (hlen : pk.length = 32) :
    get_onion_address pk = some (spec_onion_address pk) := by
  simp only [get_onion_address, if_pos hlen, spec_onion_address]
  rw [onion_buf_eq pk _ _ hlen]
  simp [List.append_assoc]

/-- Claim C2: for every 32-byte public key pk, get_onion_address(pk) returns
the base32 encoding (RFC 4648 alphabet, no padding, lower-cased) of the
35-byte buffer whose bytes 0-31 are pk, whose bytes 32-33 are the first two
bytes of SHA3-256 over ".onion checksum" ++ pk ++ 0x03, and whose byte 34 is
the version constant 3. -/
theorem get_onion_address_matches_spec (pk : List Nat) (hlen : pk.length = 32) :
    get_onion_address pk = some (spec_onion_address pk) :=
  onion_address_eq_spec pk hlen

/-- Witness for C2 at the all-zero public key. -/
theorem get_onion_address_matches_spec_witness :
    (List.replicate 32 0).length = 32 ∧
      get_onion_address (List.replicate 32 0)
        = some (spec_onion_address (List.replicate 32 0)) :=
  ⟨by decide, get_onion_address_matches_spec (List.replicate 32 0) (by decide)⟩

theorem base32encode_length35 (data : List Nat) (h : data.length = 35) :
    (toAsciiLowercase (base32encode data)).length = 56 := by
  simp only [toAsciiLowercase, List.length_map, base32encode_length, padTo5,
    List.length_append, List.length_replicate, bytesToBits_length, h]

theorem sha3_getD_lt (msg : List Nat) (i : Nat) (hi : i < 32) :
    (sha3_256 msg).getD i 0 < 256 := by
  have hlen := sha3_256_length msg
  have hi2 : i < (sha3_256 msg).length := by omega
  rw [List.getD_eq_getElem _ _ hi2]
  exact sha3_256_lt msg _ (List.getElem_mem hi2)

/-- Claim C3: for every 32-byte public key (a pure function of the key alone, hence
deterministic), get_onion_address produces a 56-character string over the
lowercase base32 alphabet, and base32-decoding it returns the original
public key in the first 32 decoded bytes. -/
theorem get_onion_address_roundtrip (pk : List Nat) (hlen : pk.length = 32)
    (hb : ∀ b ∈ pk, b < 256) :
    ∃ addr, get_onion_address pk = some addr ∧
      addr.length = 56 ∧
      (∀ c ∈ addr, c ∈ b32LowerAlphabet) ∧
      ∃ decoded, base32decode addr = some decoded ∧ decoded.take 32 = pk := by
  have hspec : spec_onion_address pk
      = toAsciiLowercase (base32encode
          (pk ++ [(sha3_256 (dotOnionChecksum ++ pk ++ [0x03])).getD 0 0,
            (sha3_256 (dotOnionChecksum ++ pk ++ [0x03])).getD 1 0] ++ [3])) := rfl
  have hbuflen : (pk ++ [(sha3_256 (dotOnionChecksum ++ pk ++ [0x03])).getD 0 0,
      (sha3_256 (dotOnionChecksum ++ pk ++ [0x03])).getD 1 0] ++ [3]).length = 35 := by
    simp [hlen]
  have hlt : ∀ b ∈ pk ++ [(sha3_256 (dotOnionChecksum ++ pk ++ [0x03])).getD 0 0,
      (sha3_256 (dotOnionChecksum ++ pk ++ [0x03])).getD 1 0] ++ [3], b < 256 := by
    intro b hbm
    simp only [List.append_assoc, List.mem_append, List.mem_cons,
      List.not_mem_nil, or_false] at hbm
    rcases hbm with h | (h | h) | h
    · exact hb b h
    · exact h ▸ sha3_getD_lt _ 0 (by norm_num)
    · exact h ▸ sha3_getD_lt _ 1 (by norm_num)
    · subst h; norm_num
  have h5 : (8 * (pk ++ [(sha3_256 (dotOnionChecksum ++ pk ++ [0x03])).getD 0 0,
      (sha3_256 (dotOnionChecksum ++ pk ++ [0x03])).getD 1 0] ++ [3]).length) % 5 = 0 := by
    rw [hbuflen]
  rw [onion_address_eq_spec pk hlen, hspec]
  refine ⟨_, rfl, base32encode_length35 _ hbuflen, toAsciiLowercase_base32encode_mem _,
    ⟨_, base32decode_toLower_encode _ hlt h5, ?_⟩⟩
  simp only [List.append_assoc]
  rw [← hlen, List.take_left]

/-- Witness for C3 at the all-zero public key. -/
theorem get_onion_address_roundtrip_witness :
    (List.replicate 32 0).length = 32 ∧ (∀ b ∈ List.replicate 32 (0 : Nat), b < 256) ∧
      ∃ addr, get_onion_address (List.replicate 32 0) = some addr ∧
        addr.length = 56 ∧
        (∀ c ∈ addr, c ∈ b32LowerAlphabet) ∧
        ∃ decoded, base32decode addr = some decoded ∧
          decoded.take 32 = List.replicate 32 0 :=
  ⟨by decide, by decide,
    get_onion_address_roundtrip (List.replicate 32 0) (by decide) (by decide)⟩

theorem beBytes_length (n v : Nat) : (beBytes n v).length = n := by
  simp [beBytes, leBytes_length]

theorem sha512_length (msg : List Nat) : (sha512 msg).length = 64 := by
  have h8 : List.range 8 = [0, 1, 2, 3, 4, 5, 6, 7] := rfl
  simp only [sha512, h8, List.flatMap_cons, List.flatMap_nil, List.length_append,
    beBytes_length, List.length_nil]

/-! ### Theorem for claim C8 (key expansion totality) -/

theorem edL_pos : 0 < edL := by norm_num [edL]

theorem edL_lt : edL < 256 ^ 32 := by norm_num [edL]

theorem ed25519PublicKey_length (s : Nat) : (ed25519PublicKey s).length = 32 := by
  simp [ed25519PublicKey, edCompress, List.length_set, leBytes_length]

/-- Claim C8: keypair_from_sk is a total, deterministic function over 32-byte
seeds: the final conversion always succeeds (its panic branch is
unreachable, because the scalar half it is given is already in canonical
reduced form), the 64-byte expanded secret is the 32-byte scalar followed
by the 32-byte hash prefix, and identical seeds yield identical expanded
keypairs and identical derived addresses (which always exist). -/
theorem keypair_from_sk_total (seed : List Nat) (hlen : seed.length = 32) :
    (∃ kp, keypair_from_sk seed = some kp ∧
        kp.secret
          = leBytes 32 (leNat (clampInteger ((sha512 seed).take 32)) % edL)
            ++ (sha512 seed).drop 32 ∧
        (leBytes 32 (leNat (clampInteger ((sha512 seed).take 32)) % edL)).length = 32 ∧
        ((sha512 seed).drop 32).length = 32) ∧
      (∀ seed', seed' = seed →
        keypair_from_sk seed' = keypair_from_sk seed ∧
          onion_address_of_sk seed' = onion_address_of_sk seed) ∧
      (onion_address_of_sk seed).isSome = true := by
  have hs_lt : leNat (clampInteger ((sha512 seed).take 32)) % edL < edL :=
    Nat.mod_lt _ edL_pos
  have hs_small : leNat (clampInteger ((sha512 seed).take 32)) % edL < 256 ^ 32 :=
    Nat.lt_trans hs_lt edL_lt
  have htake : (leBytes 32 (leNat (clampInteger ((sha512 seed).take 32)) % edL)
        ++ (sha512 seed).drop 32).take 32
      = leBytes 32 (leNat (clampInteger ((sha512 seed).take 32)) % edL) := by
    rw [show (32 : Nat)
        = (leBytes 32 (leNat (clampInteger ((sha512 seed).take 32)) % edL)).length
      from (leBytes_length _ _).symm]
    exact List.take_left _ _
  have hleNat : leNat (leBytes 32 (leNat (clampInteger ((sha512 seed).take 32)) % edL))
      = leNat (clampInteger ((sha512 seed).take 32)) % edL := by
    rw [leNat_leBytes]
    exact Nat.mod_eq_of_lt hs_small
  have hkey : keypair_from_sk seed
      = some ⟨leBytes 32 (leNat (clampInteger ((sha512 seed).take 32)) % edL)
          ++ (sha512 seed).drop 32,
        ed25519PublicKey (leNat (clampInteger ((sha512 seed).take 32)) % edL)⟩ := by
    simp only [keypair_from_sk, from_secret_key_bytes, htake, hleNat, if_pos hs_lt]
  refine ⟨⟨_, hkey, rfl, leBytes_length _ _, ?_⟩, ?_, ?_⟩
  · rw [List.length_drop, sha512_length]
  · intro seed' hseed
    subst hseed
    exact ⟨rfl, rfl⟩
  · rw [onion_address_of_sk, hkey, Option.some_bind]
    rw [get_onion_address, if_pos (ed25519PublicKey_length _)]
    rfl

/-- Witness for C8 at the all-zero seed. -/
theorem keypair_from_sk_total_witness :
    (List.replicate 32 0).length = 32 ∧
      ((∃ kp, keypair_from_sk (List.replicate 32 0) = some kp ∧
          kp.secret
            = leBytes 32
                (leNat (clampInteger ((sha512 (List.replicate 32 0)).take 32)) % edL)
              ++ (sha512 (List.replicate 32 0)).drop 32 ∧
          (leBytes 32
              (leNat (clampInteger ((sha512 (List.replicate 32 0)).take 32))
                % edL)).length = 32 ∧
          ((sha512 (List.replicate 32 0)).drop 32).length = 32) ∧
        (∀ seed', seed' = List.replicate 32 0 →
          keypair_from_sk seed' = keypair_from_sk (List.replicate 32 0) ∧
            onion_address_of_sk seed' = onion_address_of_sk (List.replicate 32 0)) ∧
        (onion_address_of_sk (List.replicate 32 0)).isSome = true) :=
  ⟨by decide, keypair_from_sk_total (List.replicate 32 0) (by decide)⟩

/-! ### Theorems for claims C4 and C10 (client escape byte) -/

/-- Claim C4: in the client's stdin-to-network loop, the escape byte 0x04 never
appears in the byte sequence written to the network stream, and once a read
chunk contains 0x04 the stdin-to-network direction terminates: reads after
that chunk cannot influence the bytes written. -/
theorem stdinToNet_escape_terminates :
    (∀ reads, 0x04 ∉ OnionClient.stdinToNet reads) ∧
      ∀ pre c rest rest', 0x04 ∈ c →
        OnionClient.stdinToNet (pre ++ some c :: rest)
          = OnionClient.stdinToNet (pre ++ some c :: rest') := by
  constructor
  · intro reads
    induction reads using OnionClient.stdinToNet.induct with
    | case1 => simp [OnionClient.stdinToNet]
    | case2 rest => simp [OnionClient.stdinToNet]
    | case3 rest => simp [OnionClient.stdinToNet]
    | case4 b bs rest h4 => simp [OnionClient.stdinToNet, h4]
    | case5 b bs rest h4 ih =>
      simp only [OnionClient.stdinToNet, if_neg h4, List.mem_append]
      rintro (h | h)
      · exact h4 h
      · exact ih h
  · intro pre c rest rest' hc
    induction pre with
    | nil =>
      cases c with
      | nil => simp at hc
      | cons b bs =>
        simp only [List.nil_append, OnionClient.stdinToNet, if_pos hc]
    | cons r pre ih =>
      match r with
      | none => simp [OnionClient.stdinToNet]
      | some [] => simp [OnionClient.stdinToNet]
      | some (b :: bs) =>
        simp only [List.cons_append, OnionClient.stdinToNet]
        by_cases h4 : (0x04 ∈ b :: bs)
        · simp [h4]
        · simp [h4, ih]

/-- Witness for C4 at a two-chunk input whose second chunk holds 0x04. -/
theorem stdinToNet_escape_terminates_witness :
    (0x04 ∈ [0x61, 0x04]) ∧
      OnionClient.stdinToNet ([some [0x61]] ++ some [0x61, 0x04] :: [some [0x62]])
        = OnionClient.stdinToNet ([some [0x61]] ++ some [0x61, 0x04] :: []) :=
  ⟨by decide,
    stdinToNet_escape_terminates.2 [some [0x61]] [0x61, 0x04] [some [0x62]] []
      (by decide)⟩

/-- Claim C10: when a single stdin read returns a chunk containing 0x04, the entire
chunk — bytes preceding the 0x04 included — is discarded: the bytes written
to the network are exactly the earlier, fully forwarded chunks. -/
theorem stdinToNet_discards_whole_chunk (pre : List (List Nat)) (c : List Nat)
    (rest : List (Option (List Nat)))
    (hpre : ∀ d ∈ pre, d ≠ [] ∧ 0x04 ∉ d) (hc : 0x04 ∈ c) :
    OnionClient.stdinToNet (pre.map some ++ some c :: rest) = pre.flatten := by
  induction pre with
  | nil =>
    cases c with
    | nil => simp at hc
    | cons b bs =>
      simp only [List.map_nil, List.nil_append, OnionClient.stdinToNet, if_pos hc,
        List.flatten_nil]
  | cons d pre ih =>
    obtain ⟨hd, h4⟩ := hpre d (by simp)
    match d, hd with
    | b :: bs, _ =>
      simp only [List.map_cons, List.cons_append, OnionClient.stdinToNet, if_neg h4,
        List.flatten_cons, List.append_eq]
      rw [ih (fun x hx => hpre x (by simp [hx]))]

/-- Witness for C10: one clean chunk, then a chunk carrying 0x04. -/
theorem stdinToNet_discards_whole_chunk_witness :
    (∀ d ∈ [[0x61]], d ≠ ([] : List Nat) ∧ 0x04 ∉ d) ∧ (0x04 ∈ [0x62, 0x04]) ∧
      OnionClient.stdinToNet ([[0x61]].map some ++ some [0x62, 0x04] :: [])
        = [[0x61]].flatten :=
  ⟨by decide, by decide,
    stdinToNet_discards_whole_chunk [[0x61]] [0x62, 0x04] [] (by decide) (by decide)⟩

/-! ### Theorem for claim C9 (terminal restoration) -/

/-- Claim C9: on every exit path of OnionShellClient::connect — normal session end,
abnormal (panicked) bridge task, raw-mode-enable failure, transport connect
failure — the terminal is not in raw mode when connect returns; a transport
connect failure is surfaced as an error and on that path raw mode was never
even entered, so the restoration guarantee holds when the error reaches the
caller. -/
theorem connect_restores_terminal (connectOk enableRawOk : Bool)
    (se : OnionClient.SessionEnd) :
    OnionClient.rawAfter (OnionClient.connectTrace connectOk enableRawOk se) = false ∧
      (connectOk = false →
        OnionClient.connectErr connectOk enableRawOk = true ∧
          OnionClient.ClientEvent.rawModeEnabled ∉
            OnionClient.connectTrace connectOk enableRawOk se) := by
  cases connectOk <;> cases enableRawOk <;> cases se <;> decide

/-- Witness for C9 on the transport-connect-failure path. -/
theorem connect_restores_terminal_witness :
    OnionClient.rawAfter
        (OnionClient.connectTrace false true OnionClient.SessionEnd.normal) = false ∧
      OnionClient.connectErr false true = true ∧
        OnionClient.ClientEvent.rawModeEnabled ∉
          OnionClient.connectTrace false true OnionClient.SessionEnd.normal :=
  ⟨(connect_restores_terminal false true OnionClient.SessionEnd.normal).1,
    (connect_restores_terminal false true OnionClient.SessionEnd.normal).2 rfl⟩

/-! ### Theorems for claims C5, C6, C7, C1 (server accept loop) -/

/-- Claim C5 counterexample: a Begin request for the matching shell port whose
transport-level accept call fails spawns no shell-connection handler, so
"every Begin request for the matching port ... results in spawning exactly
one shell-connection handler" fails at this input. -/
theorem matching_request_accept_failure_spawns_none :
    OnionServer.stepRequest ⟨.begin OnionServer.SHELL_PORT, false⟩
        = [OnionServer.ServerAction.acceptFailed] ∧
      OnionServer.countSpawned
          (OnionServer.acceptLoop
            [OnionServer.LoopEvent.req ⟨.begin OnionServer.SHELL_PORT, false⟩]) ≠ 1 := by
  decide

/-- Claim C5 (amended): a request that is not Begin-for-the-shell-port is rejected
by an explicit circuit shutdown and the loop continues; a Begin request for
the shell port is accepted, spawning exactly one handler when the accept
call succeeds and none (the failure is only logged) when it fails. -/
theorem acceptLoop_filters_by_port (e : OnionServer.StreamRequestEvent)
    (rest : List OnionServer.LoopEvent) :
    (∀ port, e.request = .begin port → port ≠ OnionServer.SHELL_PORT →
        OnionServer.stepRequest e = [.circuitShutdown]) ∧
      (e.request = .other → OnionServer.stepRequest e = [.circuitShutdown]) ∧
      (∀ port, e.request = .begin port → port = OnionServer.SHELL_PORT →
        e.acceptOk = true →
          OnionServer.stepRequest e = [.handlerSpawned] ∧
            OnionServer.countSpawned (OnionServer.stepRequest e) = 1) ∧
      (∀ port, e.request = .begin port → port = OnionServer.SHELL_PORT →
        e.acceptOk = false →
          OnionServer.stepRequest e = [.acceptFailed] ∧
            OnionServer.countSpawned (OnionServer.stepRequest e) = 0) ∧
      OnionServer.acceptLoop (OnionServer.LoopEvent.req e :: rest)
        = OnionServer.stepRequest e ++ OnionServer.acceptLoop rest := by
  obtain ⟨req, aok⟩ := e
  refine ⟨?_, ?_, ?_, ?_, rfl⟩
  · intro port hreq hne
    cases req with
    | begin p =>
      cases hreq
      simp [OnionServer.stepRequest, hne]
    | other => cases hreq
  · intro hreq
    cases req with
    | begin p => cases hreq
    | other => simp [OnionServer.stepRequest]
  · intro port hreq hp hok
    cases req with
    | begin p =>
      cases hreq
      subst hp
      subst hok
      refine ⟨by simp [OnionServer.stepRequest], by decide⟩
    | other => cases hreq
  · intro port hreq hp hok
    cases req with
    | begin p =>
      cases hreq
      subst hp
      subst hok
      refine ⟨by simp [OnionServer.stepRequest], by decide⟩
    | other => cases hreq

/-- Witness for C5 (amended): a non-matching port is shut down, a matching
accepted request spawns exactly one handler. -/
theorem acceptLoop_filters_by_port_witness :
    OnionServer.stepRequest ⟨.begin 5, true⟩
        = [OnionServer.ServerAction.circuitShutdown] ∧
      OnionServer.stepRequest ⟨.begin OnionServer.SHELL_PORT, true⟩
          = [OnionServer.ServerAction.handlerSpawned] ∧
        OnionServer.countSpawned
          (OnionServer.stepRequest ⟨.begin OnionServer.SHELL_PORT, true⟩) = 1 :=
  ⟨(acceptLoop_filters_by_port ⟨.begin 5, true⟩ []).1 5 rfl (by decide),
    ((acceptLoop_filters_by_port ⟨.begin OnionServer.SHELL_PORT, true⟩ []).2.2.1
      OnionServer.SHELL_PORT rfl rfl rfl).1,
    ((acceptLoop_filters_by_port ⟨.begin OnionServer.SHELL_PORT, true⟩ []).2.2.1
      OnionServer.SHELL_PORT rfl rfl rfl).2⟩

/-- Claim C6: a cancellation event makes the accept loop exit immediately — events
after it are never processed — and cancellation never aborts already-spawned
shell-connection handler tasks: the handlers spawned before the cancellation
are unchanged in the trace and no trace ever contains an abort action. -/
theorem acceptLoop_cancellation_behavior :
    (∀ (pre : List OnionServer.StreamRequestEvent) (rest : List OnionServer.LoopEvent),
        OnionServer.acceptLoop
          (pre.map OnionServer.LoopEvent.req ++ OnionServer.LoopEvent.cancelled :: rest)
        = pre.flatMap OnionServer.stepRequest ++ [.loopExited]) ∧
      (∀ evts, OnionServer.ServerAction.handlerAborted ∉ OnionServer.acceptLoop evts) ∧
      (∀ (pre : List OnionServer.StreamRequestEvent) (rest : List OnionServer.LoopEvent),
        OnionServer.countSpawned
            (OnionServer.acceptLoop
              (pre.map OnionServer.LoopEvent.req ++ OnionServer.LoopEvent.cancelled :: rest))
          = OnionServer.countSpawned (pre.flatMap OnionServer.stepRequest)) := by
  have habort : ∀ e, OnionServer.ServerAction.handlerAborted ∉ OnionServer.stepRequest e := by
    rintro ⟨req, aok⟩ hmem
    cases req with
    | begin p =>
      simp only [OnionServer.stepRequest] at hmem
      split at hmem
      · split at hmem <;> simp_all
      · simp_all
    | other => simp_all [OnionServer.stepRequest]
  have hmain : ∀ (pre : List OnionServer.StreamRequestEvent) rest,
      OnionServer.acceptLoop
          (pre.map OnionServer.LoopEvent.req ++ OnionServer.LoopEvent.cancelled :: rest)
        = pre.flatMap OnionServer.stepRequest ++ [.loopExited] := by
    intro pre rest
    induction pre with
    | nil => rfl
    | cons e pre ih =>
      simp only [List.map_cons, List.cons_append, OnionServer.acceptLoop,
        List.append_eq, ih, List.flatMap_cons, List.append_assoc]
  refine ⟨hmain, ?_, ?_⟩
  · intro evts
    induction evts using OnionServer.acceptLoop.induct with
    | case1 => simp [OnionServer.acceptLoop]
    | case2 rest => simp [OnionServer.acceptLoop]
    | case3 e rest ih =>
      simp only [OnionServer.acceptLoop, List.mem_append]
      rintro (h | h)
      · exact habort e h
      · exact ih h
  · intro pre rest
    rw [hmain pre rest]
    simp [OnionServer.countSpawned, List.countP_append]

/-- Claim C7 counterexample: when the status stream ends (here: immediately)
without any fully reachable event, the announcement line is emitted anyway,
refuting "only after a fully reachable event has been observed". -/
theorem announce_without_reachable_event :
    OnionServer.announceTrace [] = [OnionServer.AnnounceStep.announced] ∧
      (∀ s ∈ OnionServer.announceTrace [], s ≠ .observed true) ∧
      OnionServer.announceCount [] = 1 := by
  decide

/-- Claim C7 (amended): the announcement is emitted exactly once; when a fully
reachable event occurs it is emitted right after the first such event, and
when the status stream ends without one it is emitted after the stream
ends. -/
theorem announce_exactly_once (evts : List OnionServer.OnionStatusEvent) :
    OnionServer.announceCount evts = 1 ∧
      (∀ pre e rest, evts = pre ++ e :: rest →
        (∀ x ∈ pre, x.fullyReachable = false) → e.fullyReachable = true →
        OnionServer.announceTrace evts
          = pre.map (fun x => .observed x.fullyReachable)
              ++ [.observed true, .announced]) ∧
      ((∀ x ∈ evts, x.fullyReachable = false) →
        OnionServer.announceTrace evts
          = evts.map (fun x => .observed x.fullyReachable)
              ++ [.announced]) := by
  refine ⟨?_, ?_, ?_⟩
  · induction evts with
    | nil => decide
    | cons e rest ih =>
      by_cases hr : e.fullyReachable
      · simp [OnionServer.announceCount, OnionServer.announceTrace, hr, List.countP_cons]
      · simp only [OnionServer.announceCount, OnionServer.announceTrace, if_neg hr,
          List.countP_cons] at ih ⊢
        simp [ih]
  · intro pre e rest heq hpre hr
    subst heq
    induction pre with
    | nil => simp [OnionServer.announceTrace, hr]
    | cons x pre ih =>
      have hx : x.fullyReachable = false := hpre x (by simp)
      have ih2 := ih (fun y hy => hpre y (by simp [hy]))
      simp [OnionServer.announceTrace, hx, ih2]
  · intro hall
    induction evts with
    | nil => rfl
    | cons x rest ih =>
      have hx : x.fullyReachable = false := hall x (by simp)
      have ih2 := ih (fun y hy => hall y (by simp [hy]))
      simp [OnionServer.announceTrace, hx, ih2]

/-- Witness for C7 (amended): one unreachable event, then a reachable one,
then a further event that is never observed. -/
theorem announce_exactly_once_witness :
    OnionServer.announceCount [⟨false⟩, ⟨true⟩, ⟨false⟩] = 1 ∧
      OnionServer.announceTrace [⟨false⟩, ⟨true⟩, ⟨false⟩]
        = [.observed false, .observed true, .announced] :=
  ⟨(announce_exactly_once [⟨false⟩, ⟨true⟩, ⟨false⟩]).1,
    (announce_exactly_once [⟨false⟩, ⟨true⟩, ⟨false⟩]).2.1 [⟨false⟩] ⟨true⟩ [⟨false⟩]
      rfl (by decide) rfl⟩

/-- Claim C1: the fixed shell port compiled into the server (23) differs from the
fixed port the client dials (22), although the client's doc comment says it
matches the server constant; consequently the server's direct-shell filter
rejects exactly the Begin requests the client issues. -/
theorem shell_port_mismatch :
    OnionServer.SHELL_PORT = 23 ∧ OnionClient.SHELL_PORT = 22 ∧
      OnionServer.SHELL_PORT ≠ OnionClient.SHELL_PORT ∧
      OnionServer.stepRequest ⟨.begin OnionClient.SHELL_PORT, true⟩
        = [OnionServer.ServerAction.circuitShutdown] := by
  decide

end Backtor
